import Mathlib

/-!
# Verification of the text-evaluation pipeline (`evaluate_texts.py`)

A shallow embedding of the batch-submission / streaming-reconciliation
pipeline of `evaluate_texts.py` together with proofs about the claims of
its specification.

Python strings are modelled as `List Char` (with `String` wrappers where
convenient); digits are modelled as the ten ASCII digit characters, which
is what the corpus identifiers use.  Fallible operations (pandas column
access, which raises `KeyError`) are modelled with `Except`.
-/

namespace EvalTexts

/-! ## Basic Python-string utilities -/

/-- The ten ASCII digit characters.  Models both `\d` of the
`re` pattern and the success domain of `int(c)` for a single
character `c` of the corpus identifiers. -/
def isDigitC (c : Char) : Bool :=
  c = '0' || c = '1' || c = '2' || c = '3' || c = '4' ||
  c = '5' || c = '6' || c = '7' || c = '8' || c = '9'

/-- Numeric value of an ASCII digit character: models `int(c)`. -/
def digitVal (c : Char) : Nat :=
  if c = '0' then 0 else if c = '1' then 1 else if c = '2' then 2
  else if c = '3' then 3 else if c = '4' then 4 else if c = '5' then 5
  else if c = '6' then 6 else if c = '7' then 7 else if c = '8' then 8
  else 9

/-- Python `str.isspace` characters (the ASCII ones used by `str.strip`). -/
def pyIsSpace (c : Char) : Bool :=
  c = ' ' || c = '\t' || c = '\n' || c = '\r' || c = '\x0b' || c = '\x0c'

/-- Python `str.strip()`: remove leading and trailing whitespace. -/
def pyStrip (l : List Char) : List Char :=
  ((l.dropWhile pyIsSpace).reverse.dropWhile pyIsSpace).reverse

/-- Python strip lifted to `String`. -/
def pyStripS (s : String) : String := ⟨pyStrip s.toList⟩

/-! ## Grade-level derivation (`extract_curso_from_id`) -/

/-- The dictionary lookup
`curso_ordinals.get(curso_num, f'N è ESO')` of
`extract_curso_from_id`: the fixed Catalan ordinal table for grades 1-6,
with an f-string fallback for any other number. -/
def cursoLabel (n : Nat) : String :=
  if n = 1 then "1r ESO" else if n = 2 then "2n ESO"
  else if n = 3 then "3r ESO" else if n = 4 then "4t ESO"
  else if n = 5 then "5è ESO" else if n = 6 then "6è ESO"
  else toString n ++ "è ESO"

/-- Model of `extract_curso_from_id` (evaluate_texts.py lines 73-100): ids shorter
than three characters yield the default `4t ESO`; otherwise `int(id[2])`
is attempted (failure on a non-digit yields the default) and mapped
through the ordinal table. -/
def extract_curso_from_id (text_id : String) : String :=
  match text_id.toList with
  | _ :: _ :: c :: _ => if isDigitC c then cursoLabel (digitVal c) else "4t ESO"
  | _ => "4t ESO"

/-- The grade-level derivation as the (amended) specification words it:
the character at index 2, when a digit 1-6, selects the corresponding
ordinal label; a digit outside the table yields that digit followed by
`è ESO`; a missing or non-digit character yields the 4th-grade default. -/
def cursoSpec (text_id : String) : String :=
  match text_id.toList.drop 2 with
  | c :: _ =>
    if c = '1' then "1r ESO" else if c = '2' then "2n ESO"
    else if c = '3' then "3r ESO" else if c = '4' then "4t ESO"
    else if c = '5' then "5è ESO" else if c = '6' then "6è ESO"
    else if isDigitC c then toString (digitVal c) ++ "è ESO"
    else "4t ESO"
  | [] => "4t ESO"

/-! ## Identifier extraction (`extract_id_from_filename`)

`re.search(r'_(\d+)_NOR\.txt$', filename)`: the pattern is anchored at the
end of the string, so a match is a nonempty digit group, immediately
preceded by an underscore, immediately followed by the literal suffix
`_NOR.txt` at the end of the input.  Because the group `\d+` cannot cross
the mandatory underscore, the matched group is exactly the maximal digit
run preceding the suffix, and a match exists exactly when that run is
nonempty and preceded by `_`.  Python's `$` also matches just before a
single newline at the very end of the string, which the model reproduces. -/

/-- Match the pattern against the end of the input, given the input
reversed: expect the reversed suffix `txt.RON_`, then the digit group
(reversed), then an underscore. -/
def matchIdRev (rs : List Char) : Option (List Char) :=
  if ("txt.RON_".toList).isPrefixOf rs then
    let core := rs.drop 8
    let ds := core.takeWhile isDigitC
    if ds ≠ [] ∧ (core.dropWhile isDigitC).head? = some '_' then
      some ds.reverse
    else none
  else none

/-- Model of `extract_id_from_filename` (evaluate_texts.py lines 63-70) on
character lists: try the match at the end of the string, then (Python's
`$` semantics) just before a trailing newline. -/
def extractIdL (filename : List Char) : Option (List Char) :=
  match matchIdRev filename.reverse with
  | some d => some d
  | none =>
    match filename.reverse with
    | '\n' :: rest => matchIdRev rest
    | _ => none

/-- The identifier extraction on `String`. -/
def extract_id_from_filename (filename : String) : Option String :=
  (extractIdL filename.toList).map (fun l => ⟨l⟩)

/-! ## Prompt table (`load_consignas_csv`) and per-file batch building

A pandas `DataFrame` is modelled as a list of column names together with
rows of cell values (cells already as strings, matching the
`.astype(str)` coercion at the lookup site).  Column selection
`df['C']` raises `KeyError` when `C` is not a column; this is modelled
with `Except`. -/

structure PromptTable where
  cols : List String
  rows : List (List String)
deriving DecidableEq

/-- Model of `load_consignas_csv` (evaluate_texts.py lines 34-52), after the file
has been read: rename column `File ID` to `FileID` and `TEXTpost2` to
`Consigna` when present. -/
def load_consignas_csv (t : PromptTable) : PromptTable :=
  let t1 :=
    if "File ID" ∈ t.cols then
      { t with cols := t.cols.map (fun c => if c = "File ID" then "FileID" else c) }
    else t
  if "TEXTpost2" ∈ t1.cols then
    { t1 with cols := t1.cols.map (fun c => if c = "TEXTpost2" then "Consigna" else c) }
  else t1

/-- One item of the `/evaluate` payload (`batch_items` entry). -/
structure BatchItem where
  id_alumno : String
  curso : String
  consigna : String
  respuesta : String
deriving DecidableEq

/-- One `file_metadata` entry stored for matching results later. -/
structure Meta where
  id : String
  filename : String
  consigna : String
  curso : String
deriving DecidableEq

/-- The body of the per-file loop of `process_folder`
(evaluate_texts.py lines 257-295) for one file: extract the identifier
(skipping the file when absent), derive the grade level, read and strip
the content (skipping when empty; a read error yields the empty string
and is likewise skipped), then look up the prompt by
`consignas_df[consignas_df['ID'].astype(str) == text_id]` - note the
lookup queries column `ID`, raising `KeyError` when no such column
exists - defaulting the prompt to `N/A` when no row matches.
Returns `none` for a skipped file, or the batch item with its metadata. -/
def processFile (t : PromptTable) (filename content : String) :
    Except String (Option (BatchItem × Meta)) :=
  match extract_id_from_filename filename with
  | none => .ok none
  | some text_id =>
    let curso := extract_curso_from_id text_id
    let respuesta := pyStripS content
    if respuesta = "" then .ok none
    else
      match t.cols.findIdx? (fun c => c = "ID") with
      | none => .error "KeyError: ID"
      | some i =>
        match t.rows.filter (fun r => r.getD i "" = text_id) with
        | [] =>
          .ok (some (⟨text_id, curso, "N/A", respuesta⟩,
                     ⟨text_id, filename, "N/A", curso⟩))
        | r :: _ =>
          match t.cols.findIdx? (fun c => c = "Consigna") with
          | none => .error "KeyError: Consigna"
          | some j =>
            let consigna := r.getD j ""
            .ok (some (⟨text_id, curso, consigna, respuesta⟩,
                       ⟨text_id, filename, consigna, curso⟩))

/-- The per-file loop over a batch of files (given as filename/content
pairs): builds `batch_items` and `file_metadata` in file order; a raised
`KeyError` aborts the whole folder (it propagates out of
`process_folder`). -/
def buildBatch (t : PromptTable) :
    List (String × String) → Except String (List BatchItem × List Meta)
  | [] => .ok ([], [])
  | (fn, content) :: rest => do
    let x ← processFile t fn content
    let (items, metas) ← buildBatch t rest
    match x with
    | none => pure (items, metas)
    | some (it, m) => pure (it :: items, m :: metas)

/-! ## Batch partitioning (`process_folder`, lines 248-251)

`for i in range(0, len(nor_files), batch_size): nor_files[i:i+batch_size]`.
Python `range` is modelled with explicit fuel (`stop - start` iterations
suffice for a positive step; `range` with step 0 raises in Python and is
never reached, since the loop only runs with the configured batch size). -/

/-- Iteration core of `range(start, stop, step)`. -/
def rangeGo : Nat → Nat → Nat → Nat → List Nat
  | 0, _, _, _ => []
  | fuel + 1, start, stop, step =>
    if start < stop then start :: rangeGo fuel (start + step) stop step else []

/-- Python `range(start, stop, step)` for a positive step. -/
def pyRange (start stop step : Nat) : List Nat :=
  rangeGo (stop - start) start stop step

/-- The batch loop of `process_folder`: the Python slice
`nor_files[i:i+batch_size]` is `(nor_files.drop i).take batch_size`. -/
def process_batches (nor_files : List α) (batch_size : Nat) : List (List α) :=
  (pyRange 0 nor_files.length batch_size).map
    (fun i => (nor_files.drop i).take batch_size)

/-! ## The SSE stream consumer (`stream_results`, lines 132-190)

The wire payload is delivered as a list of text chunks
(`response.iter_content` with `decode_unicode=True` yields text; a chunk
boundary may fall anywhere, including inside a frame).  The loop keeps a
text buffer; while the buffer contains a blank line (`'\n\n'`), it pops
the text before the first blank line as one frame
(`buffer.split('\n\n', 1)`), parses the frame's lines, and dispatches on
the event tag; `complete` and `error` break out of the inner frame loop
only - the outer chunk loop continues reading.

Python's repeated `split('\n\n', 1)` is modelled by splitting the whole
buffer at every occurrence of the delimiter at once (`splitAll`: the
greedy left-to-right split, `buffer.split('\n\n')`): the popped frames
are all segments but the last, and the buffer remaining after stopping
early is the remaining segments re-joined with the delimiter.

JSON decoding (`json.loads`) is a library function and is kept as a
parameter `decode`; a decoded payload is abstracted by the one field the
control flow reads (`data.get('results', [])` - `progress` and `message`
only feed `print`, which is not modelled). -/

/-- Greedy left-to-right split of a buffer at every `"\n\n"`
(Python `buffer.split('\n\n')`). -/
def splitAll : List Char → List (List Char)
  | [] => [[]]
  | [c] => [[c]]
  | c1 :: c2 :: rest =>
    if c1 = '\n' ∧ c2 = '\n' then [] :: splitAll rest
    else
      match splitAll (c2 :: rest) with
      | [] => [[c1]]
      | s :: ss => (c1 :: s) :: ss

/-- Python `text.split('\n')`. -/
def splitNl : List Char → List (List Char)
  | [] => [[]]
  | c :: rest =>
    if c = '\n' then [] :: splitNl rest
    else
      match splitNl rest with
      | [] => [[c]]
      | s :: ss => (c :: s) :: ss

/-- A decoded `data:` payload, abstracted to the field the control flow
reads: `results := none` models a decoded object without a `results`
key, so that `data.get('results', [])` yields `[]`. -/
structure Payload (ρ : Type) where
  results : Option (List ρ)
deriving DecidableEq

/-- The `event_data` dictionary built for one frame: the last `event:`
line's stripped value, and the last successfully decoded `data:` line. -/
structure Frame (ρ : Type) where
  tag : Option (List Char)
  data : Option (Payload ρ)
deriving DecidableEq

/-- Parse one frame (lines 154-164): split the stripped frame text into
lines; an `event:` line stores its stripped remainder under `event`; a
`data:` line whose payload decodes stores it under `data`, and one that
fails to decode is skipped (`except json.JSONDecodeError: pass`). -/
def parseFrame (decode : List Char → Option (Payload ρ)) (ftext : List Char) : Frame ρ :=
  (splitNl (pyStrip ftext)).foldl
    (fun acc line =>
      if ("event:".toList).isPrefixOf line then
        { acc with tag := some (pyStrip (line.drop 6)) }
      else if ("data:".toList).isPrefixOf line then
        match decode (pyStrip (line.drop 5)) with
        | some v => { acc with data := some v }
        | none => acc
      else acc)
    ⟨none, none⟩

/-- The event tag of a results-carrying frame. -/
def batchTag : List Char := "batch_complete".toList

/-- Model of the results extraction: `event_data.get('data')` with an
empty-dict default, then `.get('results', [])`. -/
def frameResults (fr : Frame ρ) : List ρ :=
  match fr.data with
  | some p => p.results.getD []
  | none => []

/-- The two terminal event tags, `complete` and `error`. -/
def isTerminal (fr : Frame ρ) : Bool :=
  fr.tag = some ("complete".toList) || fr.tag = some ("error".toList)

/-- The inner frame loop (`while '\n\n' in buffer`), given the buffer as
its delimiter-split segments (the last segment is the part after the
last blank line, kept as the new buffer).  Each popped frame is parsed
and dispatched: a `batch_complete` frame appends its results; a
`complete` or `error` frame breaks out of the loop, leaving the rest of
the buffer unconsumed.  Returns the frames handled (in order), the
accumulated results, and the remaining buffer segments. -/
def drainSegs (decode : List Char → Option (Payload ρ)) :
    List (List Char) → List ρ → List (Frame ρ) × List ρ × List (List Char)
  | [], results => ([], results, [])
  | [rem], results => ([], results, [rem])
  | ftext :: s :: ss, results =>
    let fr := parseFrame decode ftext
    let results' :=
      if fr.tag = some batchTag then results ++ frameResults fr
      else results
    if isTerminal fr then ([fr], results', s :: ss)
    else
      let out := drainSegs decode (s :: ss) results'
      (fr :: out.1, out.2.1, out.2.2)

/-- The inner frame loop on a flat buffer. -/
def drainBuffer (decode : List Char → Option (Payload ρ)) (buffer : List Char)
    (results : List ρ) : List (Frame ρ) × List ρ × List Char :=
  let out := drainSegs decode (splitAll buffer) results
  (out.1, out.2.1, List.intercalate ['\n', '\n'] out.2.2)

/-- The outer chunk loop (`for chunk in response.iter_content(...)`):
empty chunks are skipped (`if chunk:`), a nonempty chunk is appended to
the buffer and the frame loop runs.  Returns the handled frames (ghost
instrumentation recording the order in which the dispatch examined
frames) and the final accumulated results. -/
def streamLoop (decode : List Char → Option (Payload ρ)) :
    List (List Char) → List Char → List ρ → List (Frame ρ) × List ρ
  | [], _, results => ([], results)
  | c :: cs, buffer, results =>
    if c = [] then streamLoop decode cs buffer results
    else
      let d := drainBuffer decode (buffer ++ c) results
      let rest := streamLoop decode cs d.2.2 d.2.1
      (d.1 ++ rest.1, rest.2)

/-- How the stream of chunks ended: normally, or with a
`requests.exceptions.RequestException` (transport failure or timeout)
raised after the listed chunks were delivered. -/
inductive StreamEnd where
  | ok : StreamEnd
  | transportFailure : StreamEnd
deriving DecidableEq

/-- Model of `stream_results`: consume the delivered chunks; on normal exhaustion
the function returns `results`, and on a transport failure the
`except requests.exceptions.RequestException` handler also returns the
`results` accumulated so far. -/
def stream_results (decode : List Char → Option (Payload ρ))
    (chunks : List (List Char)) (ending : StreamEnd) : List (Frame ρ) × List ρ :=
  match ending with
  | .ok => streamLoop decode chunks [] []
  | .transportFailure => streamLoop decode chunks [] []

/-- The result entries carried by the `batch_complete` frames of a frame
sequence, in order. -/
def batchResultsOf : List (Frame ρ) → List ρ
  | [] => []
  | fr :: rest =>
    (if fr.tag = some batchTag then frameResults fr else [])
      ++ batchResultsOf rest

/-- The buffering/frame-extraction stage alone (lines 144-151, before any
dispatch): pop every complete frame, keep the rest as the buffer. -/
def extractFrames (buffer : List Char) : List (List Char) × List Char :=
  ((splitAll buffer).dropLast, (splitAll buffer).getLastD [])

/-- The chunk loop restricted to the buffering/frame-extraction stage:
the sequence of frame texts recovered from a chunked delivery. -/
def framesLoop : List (List Char) → List Char → List (List Char)
  | [], _ => []
  | c :: cs, buffer =>
    if c = [] then framesLoop cs buffer
    else
      let e := extractFrames (buffer ++ c)
      e.1 ++ framesLoop cs e.2

/-- A concrete decoder for evaluating the model: payload text starting
with `@` fails to decode, any other payload decodes to an object whose
`results` list holds the payload text itself as its single entry. -/
def demoDecode : List Char → Option (Payload (List Char)) :=
  fun s => if s.head? = some '@' then none else some ⟨some [s]⟩

/-- Whether a character list contains the frame delimiter `"\n\n"`
(Python `'\n\n' in buffer`). -/
def hasBlank : List Char → Bool
  | [] => false
  | [_] => false
  | c1 :: c2 :: rest => (c1 = '\n' && c2 = '\n') || hasBlank (c2 :: rest)

/-! ## Result reconciliation (`process_folder`, lines 304-318)

For each streamed result entry, `next((m for m in file_metadata if
m['id'] == id_alumno), None)` finds the first metadata entry with the
result's `id_alumno`; on a match a result row is appended (the entry is
discarded otherwise).  The `nota` and `feedback` fields are copied from
the result entry unchanged and are kept abstract (`payload`); the row's
`id` equals `id_alumno`, which by the match condition equals the matched
metadata entry's id. -/

/-- One streamed result entry: `result.get('id_alumno')` (absent key
gives `none`) plus the fields copied into the row unchanged. -/
structure RawResult (β : Type) where
  id_alumno : Option String
  payload : β
deriving DecidableEq

/-- One row of `all_results`. -/
structure ResultRow (β : Type) where
  folder : String
  id : String
  filename : String
  curso : String
  consigna : String
  payload : β
deriving DecidableEq

/-- The body of the reconciliation loop for one result entry. -/
def matchStep (folder : String) (file_metadata : List Meta)
    (acc : List (ResultRow β)) (result : RawResult β) : List (ResultRow β) :=
  match file_metadata.find? (fun m => some m.id = result.id_alumno) with
  | some metadata =>
    acc ++ [⟨folder, metadata.id, metadata.filename, metadata.curso,
            metadata.consigna, result.payload⟩]
  | none => acc

/-- The reconciliation loop (`for result in results`). -/
def matchResults (folder : String) (results : List (RawResult β))
    (file_metadata : List Meta) : List (ResultRow β) :=
  results.foldl (matchStep folder file_metadata) []

/-- C2 counterexample: the claim says a third-character digit outside the
table (such as 7) yields the default `4t ESO`, but the code's dictionary
fallback produces `7è ESO` for the identifier `11710001`. -/
theorem curso_out_of_table_digit_not_default :
    extract_curso_from_id "11710001" = "7è ESO" ∧
      extract_curso_from_id "11710001" ≠ "4t ESO" := by
  constructor
  · rfl
  · decide

/-- C2 amended: grade-level derivation is total and, for every identifier,
agrees with the amended table: digits 1-6 at index 2 map to the six
ordinals, any other digit d maps to `d è ESO` (no space), and a missing or
non-digit third character maps to the 4th-grade default. -/
theorem curso_amended_spec (text_id : String) :
    extract_curso_from_id text_id = cursoSpec text_id := by
  unfold extract_curso_from_id cursoSpec
  rcases h : text_id.toList with _ | ⟨a, _ | ⟨b, _ | ⟨c, r⟩⟩⟩
  · rfl
  · rfl
  · rfl
  · simp only [List.drop_succ_cons, List.drop_zero]
    by_cases h0 : c = '0'
    · subst h0; rfl
    by_cases h1 : c = '1'
    · subst h1; rfl
    by_cases h2 : c = '2'
    · subst h2; rfl
    by_cases h3 : c = '3'
    · subst h3; rfl
    by_cases h4 : c = '4'
    · subst h4; rfl
    by_cases h5 : c = '5'
    · subst h5; rfl
    by_cases h6 : c = '6'
    · subst h6; rfl
    by_cases h7 : c = '7'
    · subst h7; rfl
    by_cases h8 : c = '8'
    · subst h8; rfl
    by_cases h9 : c = '9'
    · subst h9; rfl
    · have hd : isDigitC c = false := by
        simp [isDigitC, h0, h1, h2, h3, h4, h5, h6, h7, h8, h9]
      simp [hd, h1, h2, h3, h4, h5, h6]

/-! ## Helper lemmas on lists of characters -/

theorem isPrefixOf_self_append (l t : List Char) : l.isPrefixOf (l ++ t) = true := by
  induction l with
  | nil => simp [List.isPrefixOf]
  | cons a as ih => simp [List.isPrefixOf, ih]

theorem isPrefixOf_exists (l₁ l₂ : List Char) :
    l₁.isPrefixOf l₂ = true ↔ ∃ t, l₂ = l₁ ++ t := by
  induction l₁ generalizing l₂ with
  | nil => simp [List.isPrefixOf]
  | cons a as ih =>
    cases l₂ with
    | nil => simp [List.isPrefixOf]
    | cons b bs =>
      simp only [List.isPrefixOf, Bool.and_eq_true, beq_iff_eq, ih, List.cons_append,
        List.cons.injEq]
      constructor
      · rintro ⟨rfl, t, rfl⟩; exact ⟨t, rfl, rfl⟩
      · rintro ⟨t, rfl, rfl⟩; exact ⟨rfl, t, rfl⟩

theorem takeWhile_all_cons (P : Char → Bool) (l : List Char) (x : Char) (r : List Char)
    (hl : ∀ a ∈ l, P a = true) (hx : P x = false) :
    (l ++ x :: r).takeWhile P = l ∧ (l ++ x :: r).dropWhile P = x :: r := by
  induction l with
  | nil => simp [List.takeWhile_cons, List.dropWhile_cons, hx]
  | cons a as ih =>
    have ha : P a = true := hl a (by simp)
    have h2 := ih (fun b hb => hl b (by simp [hb]))
    simp [List.takeWhile_cons, List.dropWhile_cons, ha, h2.1, h2.2]

theorem matchIdRev_of_form (d tail : List Char) (hd : d ≠ [])
    (hdig : ∀ c ∈ d, isDigitC c = true) :
    matchIdRev ("txt.RON_".toList ++ (d.reverse ++ '_' :: tail)) = some d := by
  have hdrop : ("txt.RON_".toList ++ (d.reverse ++ '_' :: tail)).drop 8
      = d.reverse ++ '_' :: tail := by
    have h8 : ("txt.RON_".toList).length = 8 := rfl
    rw [← h8, List.drop_left]
  have hrd : ∀ a ∈ d.reverse, isDigitC a = true := by
    intro a ha; exact hdig a (List.mem_reverse.mp ha)
  have hx : isDigitC '_' = false := rfl
  have htw := takeWhile_all_cons isDigitC d.reverse '_' tail hrd hx
  have hne : d.reverse ≠ [] := by simpa [List.reverse_eq_nil_iff] using hd
  unfold matchIdRev
  simp only [isPrefixOf_self_append, if_true, hdrop, htw.1, htw.2, List.head?_cons]
  simp [hne]

theorem matchIdRev_sound (rs d : List Char) (h : matchIdRev rs = some d) :
    d ≠ [] ∧ (∀ c ∈ d, isDigitC c = true) ∧
      ∃ tail, rs = "txt.RON_".toList ++ (d.reverse ++ '_' :: tail) := by
  unfold matchIdRev at h
  by_cases hp : ("txt.RON_".toList).isPrefixOf rs = true
  · obtain ⟨t, rfl⟩ := (isPrefixOf_exists _ _).mp hp
    have hdrop : ("txt.RON_".toList ++ t).drop 8 = t := by
      have h8 : ("txt.RON_".toList).length = 8 := rfl
      rw [← h8, List.drop_left]
    simp only [isPrefixOf_self_append, if_true, hdrop] at h
    by_cases hc : t.takeWhile isDigitC ≠ [] ∧ (t.dropWhile isDigitC).head? = some '_'
    · rw [if_pos hc] at h
      have hds : d = (t.takeWhile isDigitC).reverse := by
        exact (Option.some.injEq _ _).mp h.symm
      obtain ⟨rest, hrest⟩ : ∃ rest, t.dropWhile isDigitC = '_' :: rest := by
        cases h' : t.dropWhile isDigitC with
        | nil => rw [h'] at hc; simp at hc
        | cons a as =>
          rw [h'] at hc
          have : a = '_' := by simpa using hc.2
          exact ⟨as, by rw [this]⟩
      refine ⟨?_, ?_, rest, ?_⟩
      · rw [hds]
        simpa [List.reverse_eq_nil_iff] using hc.1
      · intro c hcmem
        rw [hds] at hcmem
        exact List.mem_takeWhile_imp (List.mem_reverse.mp hcmem)
      · have ht : t = t.takeWhile isDigitC ++ '_' :: rest := by
          conv_lhs => rw [← List.takeWhile_append_dropWhile isDigitC t]
          rw [hrest]
        rw [hds, List.reverse_reverse, ← ht]
    · rw [if_neg hc] at h
      exact absurd h (by simp)
  · rw [if_neg hp] at h
    exact absurd h (by simp)

theorem extractIdL_form (p d : List Char) (hd : d ≠ [])
    (hdig : ∀ c ∈ d, isDigitC c = true) :
    extractIdL (p ++ '_' :: (d ++ "_NOR.txt".toList)) = some d := by
  have hsfx : ("_NOR.txt".toList).reverse = "txt.RON_".toList := by decide
  have hrev : (p ++ '_' :: (d ++ "_NOR.txt".toList)).reverse
      = "txt.RON_".toList ++ (d.reverse ++ '_' :: p.reverse) := by
    simp [List.reverse_append, hsfx, List.append_assoc]
  unfold extractIdL
  rw [hrev, matchIdRev_of_form d p.reverse hd hdig]

theorem extractIdL_sound (fn d : List Char) (h : extractIdL fn = some d) :
    d ≠ [] ∧ (∀ c ∈ d, isDigitC c = true) ∧
      ∃ p, fn = p ++ '_' :: (d ++ "_NOR.txt".toList) ∨
           fn = p ++ '_' :: (d ++ "_NOR.txt\n".toList) := by
  have hsfx : ("txt.RON_".toList).reverse = "_NOR.txt".toList := by decide
  unfold extractIdL at h
  cases hm : matchIdRev fn.reverse with
  | some d' =>
    rw [hm] at h
    have hdd : d' = d := by simpa using h
    subst hdd
    obtain ⟨hne, hdig, tail, htail⟩ := matchIdRev_sound _ _ hm
    refine ⟨hne, hdig, tail.reverse, Or.inl ?_⟩
    have := congrArg List.reverse htail
    rw [List.reverse_reverse] at this
    rw [this]
    simp [List.reverse_append, hsfx, List.append_assoc]
  | none =>
    rw [hm] at h
    dsimp only at h
    split at h
    · rename_i rest hr
      obtain ⟨hne, hdig, tail, htail⟩ := matchIdRev_sound _ _ h
      refine ⟨hne, hdig, tail.reverse, Or.inr ?_⟩
      have hfn : fn = rest.reverse ++ ['\n'] := by
        have h2 := congrArg List.reverse hr
        rw [List.reverse_reverse] at h2
        rw [h2, List.reverse_cons]
      have hnl : "_NOR.txt".toList ++ ['\n'] = "_NOR.txt\n".toList := by decide
      rw [hfn, htail]
      simp only [List.reverse_append, List.reverse_cons, List.reverse_reverse, hsfx]
      simp [List.append_assoc, ← hnl]
    · exact absurd h (by simp)

/-- Every filename of the form `prefix ++ "_" ++ digits ++ "_NOR.txt"` ends
with the character `t`; used to see that the C9 counterexample filename
(ending in a newline) is not of that form. -/
theorem form_getLast (p d : List Char) :
    (p ++ '_' :: (d ++ "_NOR.txt".toList)).getLast? = some 't' := by
  have h2 : ("_NOR.txt".toList) ≠ [] := by decide
  rw [List.getLast?_append_of_ne_nil _ (by simp : ('_' :: (d ++ "_NOR.txt".toList)) ≠ [])]
  show (['_'] ++ (d ++ "_NOR.txt".toList)).getLast? = some 't'
  rw [List.getLast?_append_of_ne_nil _ (by simp [h2]),
    List.getLast?_append_of_ne_nil _ h2]
  decide

/-- C9 (amended): (1) for every filename
`prefix ++ "_" ++ digits ++ "_NOR.txt"` with a nonempty digit group,
extraction returns exactly that trailing digit group; (2) whenever
extraction returns an identifier, the filename is of that form or -
the amendment, forced by Python's `$` anchor also matching before a
single trailing newline - of that form followed by one final newline;
(3) a file whose name yields no identifier is excluded from the corpus:
the per-file loop produces no batch item for it. -/
theorem extract_id_amended :
    (∀ (p d : List Char), d ≠ [] → (∀ c ∈ d, isDigitC c = true) →
        extractIdL (p ++ '_' :: (d ++ "_NOR.txt".toList)) = some d) ∧
    (∀ (fn d : List Char), extractIdL fn = some d →
        d ≠ [] ∧ (∀ c ∈ d, isDigitC c = true) ∧
          ∃ p, fn = p ++ '_' :: (d ++ "_NOR.txt".toList) ∨
               fn = p ++ '_' :: (d ++ "_NOR.txt\n".toList)) ∧
    (∀ (t : PromptTable) (fn content : String),
        extract_id_from_filename fn = none → processFile t fn content = .ok none) :=
  ⟨extractIdL_form, extractIdL_sound, fun t fn content h => by
    unfold processFile
    rw [h]⟩

/-- Witness for C9 at concrete inputs. -/
theorem extract_id_amended_witness :
    extractIdL ("POS1".toList ++ '_' :: ("11410001".toList ++ "_NOR.txt".toList))
        = some ("11410001".toList) ∧
    processFile ⟨["ID", "Consigna"], []⟩ "POS1.txt" "x" = .ok none :=
  ⟨extract_id_amended.1 "POS1".toList "11410001".toList (by decide) (by decide),
   extract_id_amended.2.2 ⟨["ID", "Consigna"], []⟩ "POS1.txt" "x" (by decide)⟩

/-- C9 counterexample: the filename `X_1_NOR.txt` followed by a newline is
not of the form `prefix ++ "_" ++ digits ++ "_NOR.txt"` (by
`form_getLast`, every such filename ends in `t`, while this one ends in a
newline), yet extraction returns the identifier `1`: Python's `$` anchor
also matches just before a trailing newline. -/
theorem extract_id_trailing_newline :
    extractIdL ("X_1_NOR.txt\n".toList) = some ['1'] ∧
      ("X_1_NOR.txt\n".toList).getLast? = some '\n' := by decide

/-- C3: the loader does normalize the two historical schemes into the
canonical columns `FileID`/`Consigna`, but the prompt lookup in
`process_folder` queries a column named `ID`, which exists under neither
scheme: with a prompt table holding a row for the student identifier, the
lookup raises `KeyError: ID` instead of returning the row's prompt text,
under both historical namings. -/
theorem consignas_lookup_keyerror :
    load_consignas_csv ⟨["File ID", "TEXTpost2"], [["11410001", "Describe X"]]⟩
        = ⟨["FileID", "Consigna"], [["11410001", "Describe X"]]⟩ ∧
    processFile ⟨["FileID", "Consigna"], [["11410001", "Describe X"]]⟩
        "POS1_11410001_NOR.txt" "Hello" = .error "KeyError: ID" ∧
    processFile (load_consignas_csv ⟨["File ID", "TEXTpost2"],
        [["11410001", "Describe X"]]⟩)
        "POS1_11410001_NOR.txt" "Hello" = .error "KeyError: ID" := by
  refine ⟨rfl, ?_, ?_⟩ <;> rfl

theorem buildBatch_append (t : PromptTable) (xs ys : List (String × String))
    (i1 m1 i2 m2) (hx : buildBatch t xs = .ok (i1, m1))
    (hy : buildBatch t ys = .ok (i2, m2)) :
    buildBatch t (xs ++ ys) = .ok (i1 ++ i2, m1 ++ m2) := by
  induction xs generalizing i1 m1 with
  | nil =>
    unfold buildBatch at hx
    injection hx with h
    injection h with h1 h2
    subst h1; subst h2
    exact hy
  | cons x rest ih =>
    obtain ⟨fn, content⟩ := x
    unfold buildBatch at hx
    cases hp : processFile t fn content with
    | error e => rw [hp] at hx; exact Except.noConfusion hx
    | ok xv =>
      rw [hp] at hx
      cases hr : buildBatch t rest with
      | error e => rw [hr] at hx; exact Except.noConfusion hx
      | ok pr =>
        obtain ⟨items, metas⟩ := pr
        rw [hr] at hx
        have hrec := ih items metas hr
        show buildBatch t ((fn, content) :: (rest ++ ys)) = _
        unfold buildBatch
        rw [hp, hrec]
        cases xv with
        | none =>
          injection hx with h
          injection h with h1 h2
          subst h1; subst h2
          rfl
        | some im =>
          obtain ⟨it, m⟩ := im
          injection hx with h
          injection h with h1 h2
          subst h1; subst h2
          rfl

/-- C7: a missing prompt never drops an item.  If a file's name yields an
identifier, its stripped content is nonempty, the prompt table has its
identifier column (named `ID`, the name the lookup actually queries, see
C3), and no row of the table carries the identifier, then the file still
produces a batch item, submitted with prompt text exactly `N/A`, in its
position in the batch. -/
theorem missing_prompt_keeps_item
    (t : PromptTable) (pre post : List (String × String))
    (fn content text_id : String) (i : Nat)
    (ipre : List BatchItem) (mpre : List Meta)
    (ipost : List BatchItem) (mpost : List Meta)
    (hid : extract_id_from_filename fn = some text_id)
    (hresp : pyStripS content ≠ "")
    (hcol : t.cols.findIdx? (fun c => c = "ID") = some i)
    (hnomatch : t.rows.filter (fun r => r.getD i "" = text_id) = [])
    (hpre : buildBatch t pre = .ok (ipre, mpre))
    (hpost : buildBatch t post = .ok (ipost, mpost)) :
    buildBatch t (pre ++ (fn, content) :: post)
      = .ok
        (ipre ++ ⟨text_id, extract_curso_from_id text_id, "N/A", pyStripS content⟩ :: ipost,
         mpre ++ ⟨text_id, fn, "N/A", extract_curso_from_id text_id⟩ :: mpost) := by
  have hfile : processFile t fn content
      = .ok (some (⟨text_id, extract_curso_from_id text_id, "N/A", pyStripS content⟩,
                   ⟨text_id, fn, "N/A", extract_curso_from_id text_id⟩)) := by
    unfold processFile
    rw [hid]
    simp only [if_neg hresp, hcol, hnomatch]
  have hmid : buildBatch t ((fn, content) :: post)
      = .ok (⟨text_id, extract_curso_from_id text_id, "N/A", pyStripS content⟩ :: ipost,
             ⟨text_id, fn, "N/A", extract_curso_from_id text_id⟩ :: mpost) := by
    unfold buildBatch
    rw [hfile, hpost]
    rfl
  exact buildBatch_append t pre _ _ _ _ _ hpre hmid

/-- Witness for C7 at a concrete table and file. -/
theorem missing_prompt_keeps_item_witness :
    buildBatch ⟨["ID", "Consigna"], [["99", "Z"]]⟩ [("POS1_11410001_NOR.txt", "Hello")]
      = .ok ([⟨"11410001", "4t ESO", "N/A", "Hello"⟩],
             [⟨"11410001", "POS1_11410001_NOR.txt", "N/A", "4t ESO"⟩]) :=
  missing_prompt_keeps_item ⟨["ID", "Consigna"], [["99", "Z"]]⟩ [] []
    "POS1_11410001_NOR.txt" "Hello" "11410001" 0 [] [] [] []
    (by decide) (by decide) (by decide) (by decide) rfl rfl

theorem rangeGo_fuel (fuel start stop step : Nat) (hstep : 1 ≤ step)
    (hfuel : stop - start ≤ fuel) :
    rangeGo fuel start stop step = rangeGo (stop - start) start stop step := by
  induction fuel using Nat.strong_induction_on generalizing start with
  | _ fuel ih =>
    match fuel with
    | 0 =>
      have h0 : stop - start = 0 := by omega
      rw [h0]
    | f + 1 =>
      by_cases h : start < stop
      · obtain ⟨k, hk⟩ : ∃ k, stop - start = k + 1 := ⟨stop - start - 1, by omega⟩
        rw [hk]
        show (if start < stop then start :: rangeGo f (start + step) stop step else []) =
          (if start < stop then start :: rangeGo k (start + step) stop step else [])
        rw [if_pos h, if_pos h]
        have h1 := ih f (by omega) (start + step) (by omega)
        have h2 := ih k (by omega) (start + step) (by omega)
        rw [h1, h2]
      · have h0 : stop - start = 0 := by omega
        rw [h0]
        show (if start < stop then _ else []) = []
        rw [if_neg h]

theorem pyRange_unfold (start stop step : Nat) (hstep : 1 ≤ step) :
    pyRange start stop step =
      if start < stop then start :: pyRange (start + step) stop step else [] := by
  by_cases h : start < stop
  · rw [if_pos h]
    unfold pyRange
    obtain ⟨k, hk⟩ : ∃ k, stop - start = k + 1 := ⟨stop - start - 1, by omega⟩
    rw [hk]
    show (if start < stop then start :: rangeGo k (start + step) stop step else []) = _
    rw [if_pos h, rangeGo_fuel k (start + step) stop step hstep (by omega)]
  · rw [if_neg h]
    unfold pyRange
    have h0 : stop - start = 0 := by omega
    rw [h0]
    rfl

theorem rangeGo_shift (fuel start stop step k : Nat) :
    rangeGo fuel (start + k) (stop + k) step
      = (rangeGo fuel start stop step).map (· + k) := by
  induction fuel generalizing start with
  | zero => rfl
  | succ f ih =>
    show (if start + k < stop + k then _ :: rangeGo f (start + k + step) (stop + k) step
        else []) = _
    by_cases h : start < stop
    · rw [if_pos (by omega)]
      show _ = ((if start < stop then start :: rangeGo f (start + step) stop step
          else [])).map (· + k)
      rw [if_pos h]
      have := ih (start + step)
      simp only [List.map_cons]
      rw [show start + k + step = start + step + k from by omega, this]
    · rw [if_neg (by omega)]
      show _ = ((if start < stop then start :: rangeGo f (start + step) stop step
          else [])).map (· + k)
      rw [if_neg h]
      rfl

theorem process_batches_nil (B : Nat) : process_batches ([] : List α) B = [] := rfl

theorem process_batches_cons (l : List α) (B : Nat) (hB : 1 ≤ B) (hl : l ≠ []) :
    process_batches l B = l.take B :: process_batches (l.drop B) B := by
  unfold process_batches
  have hn : 0 < l.length := List.length_pos.mpr hl
  rw [pyRange_unfold 0 l.length B hB, if_pos hn]
  simp only [List.map_cons, List.drop_zero, List.length_drop]
  congr 1
  by_cases hBn : B ≤ l.length
  · have hshift : pyRange (0 + B) l.length B = (pyRange 0 (l.length - B) B).map (· + B) := by
      have h := rangeGo_shift (l.length - B) 0 (l.length - B) B B
      rw [show l.length - B + B = l.length from by omega] at h
      unfold pyRange
      rw [show l.length - (0 + B) = l.length - B from by omega]
      exact h
    rw [hshift, List.map_map]
    apply List.map_congr_left
    intro i _
    simp only [Function.comp_apply]
    rw [List.drop_drop, Nat.add_comm i B]
  · have h1 : pyRange (0 + B) l.length B = [] := by
      unfold pyRange
      rw [show l.length - (0 + B) = 0 from by omega]
      rfl
    have h2 : pyRange 0 (l.length - B) B = [] := by
      unfold pyRange
      rw [show l.length - B - 0 = 0 from by omega]
      rfl
    rw [h1, h2]
    rfl

/-- C6: batch partitioning is order-preserving and lossless.  For every
file list and batch size B ≥ 1: the concatenation of the batches is the
original list (no duplicates, no omissions, order preserved), the number
of batches is exactly the ceiling of N/B, every batch is nonempty with at
most B elements, and every batch except possibly the last has exactly B
elements. -/
theorem batches_spec (l : List α) (B : Nat) (hB : 1 ≤ B) :
    (process_batches l B).flatten = l ∧
    (process_batches l B).length = (l.length + B - 1) / B ∧
    (∀ b ∈ process_batches l B, b ≠ [] ∧ b.length ≤ B) ∧
    (∀ j b, j + 1 < (process_batches l B).length →
        (process_batches l B)[j]? = some b → b.length = B) := by
  obtain ⟨n, hn⟩ : ∃ n, l.length = n := ⟨l.length, rfl⟩
  induction n using Nat.strong_induction_on generalizing l with
  | _ n ih =>
    by_cases hl : l = []
    · subst hl
      refine ⟨rfl, ?_, ?_, ?_⟩
      · show (0 : Nat) = (0 + B - 1) / B
        exact (Nat.div_eq_of_lt (by omega)).symm
      · intro b hb
        simp [process_batches_nil] at hb
      · intro j b hj hb
        simp [process_batches_nil] at hj
    · have hcons := process_batches_cons l B hB hl
      have hlen : 0 < l.length := List.length_pos.mpr hl
      have hdrop : (l.drop B).length = l.length - B := by rw [List.length_drop]
      have hrec := ih (l.length - B) (by omega) (l.drop B) hdrop
      obtain ⟨hjoin, hcount, hmem, hfull⟩ := hrec
      refine ⟨?_, ?_, ?_, ?_⟩
      · rw [hcons, List.flatten_cons, hjoin, List.take_append_drop]
      · rw [hcons, List.length_cons, hcount, hdrop]
        by_cases hBn : B ≤ l.length
        · rw [show l.length - B + B - 1 = l.length - 1 from by omega,
            show l.length + B - 1 = (l.length - 1) + B from by omega,
            Nat.add_div_right _ (show 0 < B from by omega)]
        · rw [show l.length - B = 0 from by omega]
          have h1 : (0 + B - 1) / B = 0 := Nat.div_eq_of_lt (by omega)
          have h2 : (l.length + B - 1) / B = 1 := by
            apply Nat.div_eq_of_lt_le <;> omega
          omega
      · intro b hb
        rw [hcons] at hb
        rcases List.mem_cons.mp hb with rfl | hb
        · constructor
          · simp only [ne_eq, List.take_eq_nil_iff]
            push_neg
            exact ⟨by omega, hl⟩
          · simp [List.length_take]
        · exact hmem b hb
      · intro j b hj hb
        rw [hcons] at hj hb
        cases j with
        | zero =>
          simp only [List.length_cons] at hj
          simp only [List.getElem?_cons_zero, Option.some.injEq] at hb
          subst hb
          have hne : process_batches (l.drop B) B ≠ [] := by
            intro he
            rw [he] at hj
            simp at hj
          have hd2 : l.drop B ≠ [] := by
            intro he
            rw [he, process_batches_nil] at hne
            exact hne rfl
          have hBl : B < l.length := by
            have := List.length_pos.mpr hd2
            omega
          simp only [List.length_take]
          omega
        | succ k =>
          simp only [List.length_cons] at hj
          simp only [List.getElem?_cons_succ] at hb
          exact hfull k b (by omega) hb

/-- Witness for C6 at a concrete list and batch size. -/
theorem batches_spec_witness :
    (process_batches [0, 1, 2, 3, 4] 2).flatten = [0, 1, 2, 3, 4] ∧
      (process_batches ([0, 1, 2, 3, 4] : List Nat) 2).length = (5 + 2 - 1) / 2 :=
  ⟨(batches_spec [0, 1, 2, 3, 4] 2 (by decide)).1,
   (batches_spec [0, 1, 2, 3, 4] 2 (by decide)).2.1⟩

theorem splitAll_ne_nil (l : List Char) : splitAll l ≠ [] := by
  match l with
  | [] => simp [splitAll]
  | [c] => simp [splitAll]
  | c1 :: c2 :: rest =>
    unfold splitAll
    by_cases h : c1 = '\n' ∧ c2 = '\n'
    · simp [h]
    · simp only [if_neg h]
      cases splitAll (c2 :: rest) <;> simp

theorem splitAll_singleton (c : Char) (xs : List Char) (s : List Char)
    (h : splitAll (c :: xs) = [s]) : ∃ t, s = c :: t := by
  match xs with
  | [] =>
    unfold splitAll at h
    injection h with h1 h2
    exact ⟨[], h1.symm⟩
  | c2 :: rest =>
    unfold splitAll at h
    by_cases hd : c = '\n' ∧ c2 = '\n'
    · rw [if_pos hd] at h
      injection h with h1 h2
      exact absurd h2 (splitAll_ne_nil rest)
    · rw [if_neg hd] at h
      cases hsp : splitAll (c2 :: rest) with
      | nil => exact absurd hsp (splitAll_ne_nil _)
      | cons s' ss' =>
        rw [hsp] at h
        cases ss' with
        | nil =>
          injection h with h1 h2
          exact ⟨s', h1.symm⟩
        | cons u us =>
          injection h with h1 h2
          exact absurd h2 (by simp)

/-- The greedy split is a streaming function: splitting `a ++ b` pops the
complete segments of `a`, then splits the leftover of `a` re-joined with
`b`. -/
theorem splitAll_append (a b : List Char) :
    splitAll (a ++ b)
      = (splitAll a).dropLast ++ splitAll ((splitAll a).getLastD [] ++ b) := by
  induction a using splitAll.induct
  case case1 => simp [splitAll]
  case case2 c => simp [splitAll]
  case case3 c1 c2 rest h ih =>
    obtain ⟨rfl, rfl⟩ := h
    obtain ⟨s, ss, hsr⟩ : ∃ s ss, splitAll rest = s :: ss := by
      cases hh : splitAll rest with
      | nil => exact absurd hh (splitAll_ne_nil rest)
      | cons s ss => exact ⟨s, ss, rfl⟩
    have e1 : splitAll ('\n' :: '\n' :: (rest ++ b)) = [] :: splitAll (rest ++ b) := by
      simp only [splitAll]
      simp
    have e2 : splitAll ('\n' :: '\n' :: rest) = [] :: splitAll rest := by
      simp only [splitAll]
      simp
    show splitAll ('\n' :: '\n' :: (rest ++ b)) = _
    rw [e1, e2, ih, hsr]
    simp [List.getLastD_cons, List.dropLast_cons₂]
  case case4 c1 c2 rest h hnil ih => exact absurd hnil (splitAll_ne_nil _)
  case case5 c1 c2 rest h s ss hs ih1 =>
    have hL : splitAll ((c1 :: c2 :: rest) ++ b)
        = match splitAll (c2 :: (rest ++ b)) with
          | [] => [[c1]]
          | s' :: ss' => (c1 :: s') :: ss' := by
      show splitAll (c1 :: c2 :: (rest ++ b)) = _
      simp only [splitAll]
      rw [if_neg h]
    have hR : splitAll (c1 :: c2 :: rest) = (c1 :: s) :: ss := by
      simp only [splitAll]
      rw [if_neg h, hs]
    rw [hL, hR]
    have hmid : splitAll (c2 :: (rest ++ b))
        = (s :: ss).dropLast ++ splitAll ((s :: ss).getLastD [] ++ b) := by
      have h3 := ih1
      rw [hs] at h3
      simpa using h3
    cases ss with
    | nil =>
      obtain ⟨t, rfl⟩ := splitAll_singleton c2 rest s hs
      simp only [List.dropLast_single, List.getLastD_cons, List.getLastD_nil,
        List.nil_append] at hmid ⊢
      rw [hmid]
      have h4 : splitAll (c1 :: ((c2 :: t) ++ b))
          = match splitAll (c2 :: (t ++ b)) with
            | [] => [[c1]]
            | s' :: ss' => (c1 :: s') :: ss' := by
        show splitAll (c1 :: c2 :: (t ++ b)) = _
        simp only [splitAll]
        rw [if_neg h]
      simp only [List.cons_append] at h4 ⊢
      rw [h4]
    | cons t ts =>
      simp only [List.dropLast_cons₂, List.getLastD_cons] at hmid ⊢
      rw [hmid]
      simp [List.getLastD_cons]

/-- A frame text containing no delimiter (and not ending in a newline
that would merge with the following delimiter) splits off cleanly. -/
theorem splitAll_frame (ft rest : List Char)
    (hf : hasBlank (ft ++ ['\n']) = false) :
    splitAll (ft ++ '\n' :: '\n' :: rest) = ft :: splitAll rest := by
  induction ft with
  | nil =>
    show splitAll ('\n' :: '\n' :: rest) = [] :: splitAll rest
    simp only [splitAll]
    simp
  | cons c cs ih =>
    cases cs with
    | nil =>
      have hcn : c ≠ '\n' := by
        intro hcc
        simp [hasBlank, hcc] at hf
      show splitAll (c :: '\n' :: '\n' :: rest) = [c] :: splitAll rest
      simp only [splitAll]
      simp [hcn]
    | cons c2 cs' =>
      have hc : ¬(c = '\n' ∧ c2 = '\n') := by
        intro hcc
        simp [hasBlank, hcc.1, hcc.2] at hf
      have hf' : hasBlank ((c2 :: cs') ++ ['\n']) = false := by
        have := hf
        simp only [hasBlank, List.cons_append, Bool.or_eq_false_iff] at this ⊢
        exact this.2
      have ihx := ih hf'
      show splitAll (c :: c2 :: (cs' ++ '\n' :: '\n' :: rest)) = _
      simp only [splitAll]
      rw [if_neg hc]
      simp only [List.cons_append] at ihx
      rw [ihx]

/-- C1 evidence: the terminal `break` exits only the inner frame loop, so
a `batch_complete` frame delivered in a later chunk is still handled
after the `complete` event, and its results are appended - the handled
trace has a frame after the first terminal frame. -/
theorem post_terminal_event_processed :
    stream_results demoDecode
      ["event: complete\n\n".toList, "event: batch_complete\ndata: RR\n\n".toList] .ok
      = ([⟨some "complete".toList, none⟩,
          ⟨some "batch_complete".toList, some ⟨some ["RR".toList]⟩⟩],
         ["RR".toList]) ∧
    isTerminal (⟨some "complete".toList, none⟩ : Frame (List Char)) = true := by
  decide

/-- C5 (amended): the buffering/frame-extraction stage is
chunk-boundary-independent - a payload split into two chunks at any
offset recovers exactly the frame sequence of the whole payload. -/
theorem frames_split_invariant (a b : List Char) :
    framesLoop [a, b] [] = framesLoop [a ++ b] [] := by
  by_cases ha : a = []
  · subst ha
    show framesLoop [[], b] [] = framesLoop [[] ++ b] []
    simp only [List.nil_append]
    show (if ([] : List Char) = [] then framesLoop [b] [] else _) = framesLoop [b] []
    rw [if_pos rfl]
  · by_cases hb : b = []
    · subst hb
      simp [framesLoop, ha, extractFrames]
    · have hab : a ++ b ≠ [] := by simp [ha]
      show framesLoop [a, b] [] = framesLoop [a ++ b] []
      simp only [framesLoop, if_neg ha, if_neg hb, if_neg hab, extractFrames,
        List.nil_append, List.append_nil]
      rw [splitAll_append a b,
        List.dropLast_append_of_ne_nil _ (splitAll_ne_nil ((splitAll a).getLastD [] ++ b))]

/-- C5 counterexample: for the handled-event sequence of the full loop
(with its terminal `break`), chunk boundaries are observable: the same
payload delivered whole stops at the `complete` frame, while delivered
in two chunks the `batch_complete` frame after the terminal is handled
too. -/
theorem chunk_split_dependence_counterexample :
    "event: complete\n\n".toList ++ "event: batch_complete\ndata: RR\n\n".toList
        = "event: complete\n\nevent: batch_complete\ndata: RR\n\n".toList ∧
    (stream_results demoDecode
        ["event: complete\n\nevent: batch_complete\ndata: RR\n\n".toList] .ok).1
      ≠ (stream_results demoDecode
        ["event: complete\n\n".toList,
         "event: batch_complete\ndata: RR\n\n".toList] .ok).1 := by
  decide

/-- C4 (amended): a frame whose data line fails to decode contributes no
results; when the frame's event tag is not terminal, it is handled and
parsing continues with the next frame exactly as if the frame carried no
payload.  (The unamended claim fails because the event line of a corrupt
frame is still honoured: a corrupt `complete`/`error` frame remains
terminal - see the counterexample.) -/
theorem corrupt_frame_amended (decode : List Char → Option (Payload ρ))
    (ft rest : List Char) (results : List ρ)
    (hf : hasBlank (ft ++ ['\n']) = false)
    (hdata : (parseFrame decode ft).data = none)
    (hterm : isTerminal (parseFrame decode ft) = false) :
    drainBuffer decode (ft ++ '\n' :: '\n' :: rest) results
      = (parseFrame decode ft :: (drainBuffer decode rest results).1,
         (drainBuffer decode rest results).2.1,
         (drainBuffer decode rest results).2.2) := by
  have hfres : frameResults (parseFrame decode ft) = [] := by
    unfold frameResults
    rw [hdata]
  obtain ⟨s, ss, hsr⟩ : ∃ s ss, splitAll rest = s :: ss := by
    cases hh : splitAll rest with
    | nil => exact absurd hh (splitAll_ne_nil rest)
    | cons s ss => exact ⟨s, ss, rfl⟩
  unfold drainBuffer
  rw [splitAll_frame ft rest hf, hsr]
  have hstep : drainSegs decode (ft :: s :: ss) results
      = (parseFrame decode ft :: (drainSegs decode (s :: ss) results).1,
         (drainSegs decode (s :: ss) results).2.1,
         (drainSegs decode (s :: ss) results).2.2) := by
    simp only [drainSegs]
    rw [hfres, List.append_nil, ite_self, hterm]
    simp only [Bool.false_eq_true, if_false]
  rw [hstep]

/-- Witness for C4: a non-terminal frame with an undecodable payload is
handled without results and the stream continues with the next frame. -/
theorem corrupt_frame_amended_witness :
    drainBuffer demoDecode
        ("event: ping\ndata: @@".toList ++ '\n' :: '\n' :: "event: x\n\n".toList)
        ([] : List (List Char))
      = (parseFrame demoDecode "event: ping\ndata: @@".toList
           :: (drainBuffer demoDecode "event: x\n\n".toList []).1,
         (drainBuffer demoDecode "event: x\n\n".toList []).2.1,
         (drainBuffer demoDecode "event: x\n\n".toList []).2.2) :=
  corrupt_frame_amended demoDecode "event: ping\ndata: @@".toList
    "event: x\n\n".toList [] (by decide) (by decide) (by decide)

/-- C4 counterexample: a `complete` frame whose data line fails to decode
is not dropped - its event line is still dispatched as terminal, so the
following `batch_complete` frame is never parsed and its results are
lost.  The claim as stated would require the corrupt frame to be dropped
silently and the next frame to be processed (yielding the `RR` result). -/
theorem corrupt_terminal_frame_counterexample :
    stream_results demoDecode
      ["event: complete\ndata: @@\n\nevent: batch_complete\ndata: RR\n\n".toList] .ok
      = ([⟨some "complete".toList, none⟩], []) := by
  decide

theorem drainSegs_acc (decode : List Char → Option (Payload ρ))
    (segs : List (List Char)) (results : List ρ) :
    drainSegs decode segs results
      = ((drainSegs decode segs []).1,
         results ++ (drainSegs decode segs []).2.1,
         (drainSegs decode segs []).2.2) := by
  induction segs generalizing results with
  | nil => simp [drainSegs]
  | cons f tail ih =>
    cases tail with
    | nil => simp [drainSegs]
    | cons s ss =>
      by_cases ht : isTerminal (parseFrame decode f) = true
      · simp only [drainSegs, if_pos ht]
        by_cases hc : (parseFrame decode f).tag = some batchTag
        · simp [if_pos hc]
        · simp [if_neg hc]
      · simp only [drainSegs, if_neg ht]
        by_cases hc : (parseFrame decode f).tag = some batchTag
        · simp only [if_pos hc, List.nil_append]
          rw [ih (results ++ frameResults (parseFrame decode f)),
            ih (frameResults (parseFrame decode f))]
          simp [List.append_assoc]
        · simp only [if_neg hc]
          rw [ih results]

theorem drainSegs_results_eq (decode : List Char → Option (Payload ρ))
    (segs : List (List Char)) :
    (drainSegs decode segs ([] : List ρ)).2.1
      = batchResultsOf (drainSegs decode segs []).1 := by
  induction segs with
  | nil => simp [drainSegs, batchResultsOf]
  | cons f tail ih =>
    cases tail with
    | nil => simp [drainSegs, batchResultsOf]
    | cons s ss =>
      by_cases ht : isTerminal (parseFrame decode f) = true
      · simp only [drainSegs, if_pos ht]
        by_cases hc : (parseFrame decode f).tag = some batchTag
        · simp [batchResultsOf, if_pos hc]
        · simp [batchResultsOf, if_neg hc]
      · simp only [drainSegs, if_neg ht]
        by_cases hc : (parseFrame decode f).tag = some batchTag
        · simp only [if_pos hc, List.nil_append]
          rw [drainSegs_acc]
          simp only [batchResultsOf, if_pos hc]
          simp only [ih]
        · simp only [if_neg hc]
          simp only [batchResultsOf, if_neg hc, List.nil_append]
          exact ih

theorem drainBuffer_acc (decode : List Char → Option (Payload ρ))
    (buffer : List Char) (results : List ρ) :
    drainBuffer decode buffer results
      = ((drainBuffer decode buffer []).1,
         results ++ (drainBuffer decode buffer []).2.1,
         (drainBuffer decode buffer []).2.2) := by
  unfold drainBuffer
  rw [drainSegs_acc]

theorem batchResultsOf_append (t1 t2 : List (Frame ρ)) :
    batchResultsOf (t1 ++ t2) = batchResultsOf t1 ++ batchResultsOf t2 := by
  induction t1 with
  | nil => simp [batchResultsOf]
  | cons fr rest ih => simp [batchResultsOf, ih]

theorem streamLoop_acc (decode : List Char → Option (Payload ρ))
    (chunks : List (List Char)) (buffer : List Char) (results : List ρ) :
    streamLoop decode chunks buffer results
      = ((streamLoop decode chunks buffer []).1,
         results ++ (streamLoop decode chunks buffer []).2) := by
  induction chunks generalizing buffer results with
  | nil => simp [streamLoop]
  | cons c cs ih =>
    by_cases hc : c = []
    · simp only [streamLoop, if_pos hc]
      exact ih buffer results
    · simp only [streamLoop, if_neg hc]
      rw [drainBuffer_acc]
      rw [ih _ (results ++ (drainBuffer decode (buffer ++ c) []).2.1),
        ih _ ((drainBuffer decode (buffer ++ c) []).2.1)]
      simp [List.append_assoc]

theorem streamLoop_results_eq (decode : List Char → Option (Payload ρ))
    (chunks : List (List Char)) (buffer : List Char) :
    (streamLoop decode chunks buffer ([] : List ρ)).2
      = batchResultsOf (streamLoop decode chunks buffer []).1 := by
  induction chunks generalizing buffer with
  | nil => simp [streamLoop, batchResultsOf]
  | cons c cs ih =>
    by_cases hc : c = []
    · simp only [streamLoop, if_pos hc]
      exact ih buffer
    · simp only [streamLoop, if_neg hc]
      rw [streamLoop_acc]
      simp only [batchResultsOf_append]
      rw [ih]
      have hb : (drainBuffer decode (buffer ++ c) ([] : List ρ)).2.1
          = batchResultsOf (drainBuffer decode (buffer ++ c) []).1 := by
        unfold drainBuffer
        exact drainSegs_results_eq decode (splitAll (buffer ++ c))
      rw [hb]

/-- C8: on a transport failure or timeout during streaming, the partial
results accumulated before the failure are returned, not discarded: the
failing run returns the same result list as a normal run over the
delivered chunks, and that list is exactly the concatenated results of
the `batch_complete` events consumed before the failure. -/
theorem partial_results_kept (decode : List Char → Option (Payload ρ))
    (chunks : List (List Char)) :
    (stream_results decode chunks .transportFailure).2
        = (stream_results decode chunks .ok).2 ∧
    (stream_results decode chunks .transportFailure).2
        = batchResultsOf (stream_results decode chunks .transportFailure).1 :=
  ⟨rfl, streamLoop_results_eq decode chunks []⟩

theorem matchResults_foldl_acc (folder : String) (md : List Meta)
    (results : List (RawResult β)) (acc : List (ResultRow β)) :
    results.foldl (matchStep folder md) acc
      = acc ++ results.foldl (matchStep folder md) [] := by
  induction results generalizing acc with
  | nil => simp
  | cons r rest ih =>
    simp only [List.foldl_cons]
    rw [ih (matchStep folder md acc r), ih (matchStep folder md [] r)]
    unfold matchStep
    cases md.find? (fun m => some m.id = r.id_alumno) <;> simp

theorem matchResults_append (folder : String) (md : List Meta)
    (xs ys : List (RawResult β)) :
    matchResults folder (xs ++ ys) md
      = matchResults folder xs md ++ matchResults folder ys md := by
  unfold matchResults
  rw [List.foldl_append, matchResults_foldl_acc]

theorem matchResults_cons (folder : String) (md : List Meta)
    (r : RawResult β) (rest : List (RawResult β)) :
    matchResults folder (r :: rest) md
      = (match md.find? (fun m => some m.id = r.id_alumno) with
         | some m => [⟨folder, m.id, m.filename, m.curso, m.consigna, r.payload⟩]
         | none => []) ++ matchResults folder rest md := by
  unfold matchResults
  simp only [List.foldl_cons]
  rw [matchResults_foldl_acc]
  unfold matchStep
  cases md.find? (fun m => some m.id = r.id_alumno) <;> simp

theorem find_first_meta (mpre : List Meta) (m : Meta) (mrest : List Meta)
    (s : String) (hm : m.id = s) (hpre : ∀ x ∈ mpre, x.id ≠ s) :
    (mpre ++ m :: mrest).find? (fun x => some x.id = some s) = some m := by
  induction mpre with
  | nil =>
    simp only [List.nil_append]
    rw [List.find?_cons_of_pos]
    simp [hm]
  | cons y ys ih =>
    simp only [List.cons_append]
    rw [List.find?_cons_of_neg]
    · exact ih (fun x hx => hpre x (by simp [hx]))
    · simp [hpre y (by simp)]

/-- C10: reconciliation does not deduplicate, and joins by first match.
When the streamed results contain two entries bearing the same
`id_alumno` and the batch metadata contains an entry with that id (the
first such entry being `m`), each of the two streamed entries produces
its own result row, both joined to `m`. -/
theorem reconcile_no_dedup_first_match {β : Type}
    (folder : String) (pre mid post : List (RawResult β)) (r1 r2 : RawResult β)
    (s : String) (mpre mrest : List Meta) (m : Meta)
    (h1 : r1.id_alumno = some s) (h2 : r2.id_alumno = some s)
    (hm : m.id = s) (hpre : ∀ x ∈ mpre, x.id ≠ s) :
    matchResults folder (pre ++ r1 :: (mid ++ r2 :: post)) (mpre ++ m :: mrest)
      = matchResults folder pre (mpre ++ m :: mrest)
        ++ ⟨folder, m.id, m.filename, m.curso, m.consigna, r1.payload⟩
          :: (matchResults folder mid (mpre ++ m :: mrest)
            ++ ⟨folder, m.id, m.filename, m.curso, m.consigna, r2.payload⟩
              :: matchResults folder post (mpre ++ m :: mrest)) := by
  rw [matchResults_append, matchResults_cons, matchResults_append, matchResults_cons]
  rw [h1, h2, find_first_meta mpre m mrest s hm hpre]
  simp

/-- Witness for C10 at a concrete stream and batch. -/
theorem reconcile_no_dedup_first_match_witness :
    matchResults "POS1"
        [(⟨some "7", "n1"⟩ : RawResult String), ⟨some "7", "n2"⟩]
        [⟨"9", "f9", "c9", "g9"⟩, ⟨"7", "f7", "c7", "g7"⟩]
      = [⟨"POS1", "7", "f7", "g7", "c7", "n1"⟩,
         ⟨"POS1", "7", "f7", "g7", "c7", "n2"⟩] := by
  have h := reconcile_no_dedup_first_match "POS1" [] [] []
      (⟨some "7", "n1"⟩ : RawResult String) ⟨some "7", "n2"⟩ "7"
      [⟨"9", "f9", "c9", "g9"⟩] [] ⟨"7", "f7", "c7", "g7"⟩
      rfl rfl rfl (by decide)
  simpa using h

end EvalTexts
